import Mathlib

/-!
The abort shim of pybitwuzla

A shallow embedding of `src/zbitvector/pybitwuzla/pybitwuzla_abort.cpp`:

```
void pybitwuzla_abort_fun(const char* msg) { throw std::runtime_error(msg); }

const char* pybitwuzla_get_err_msg()
{
  try { throw; }
  catch (const std::runtime_error& e) { return e.what(); }
}
```

The two functions are one statement each; everything they do is done by the
C++ exception machinery, so the embedding makes that machinery explicit:

* memory is a list of bytes, an address is an index into it, address 0 is the
  null pointer, and a `const char*` is an address;
* a thread carries the stack of exceptions it is currently handling (the
  handlers it is inside of, innermost first); the C++ runtime keeps this stack
  per thread;
* a call ends in one of four ways: it returns, it exits by an exception, it
  calls `std::terminate`, or its behaviour is undefined.

Assumptions of the model: allocating the storage of an exception never fails,
and storage is never reused (the storage of a destroyed exception stays where
it is).
-/

namespace Pybitwuzla

/-! ## Data model -/

/-- Dynamic type of a thrown object, as far as a handler of the form
`catch (const std::runtime_error&)` can tell them apart. -/
inductive ExnType where
  /-- the class `std::runtime_error` itself -/
  | runtime_error
  /-- a class that has `std::runtime_error` as an unambiguous public base -/
  | derived (cls : Nat)
  /-- a class derived from `std::runtime_error` with that base private,
  protected or ambiguous -/
  | derived_hidden (cls : Nat)
  /-- any other type (`std::logic_error`, `int`, ...) -/
  | other (cls : Nat)
  deriving DecidableEq, Repr

/-- Whether a handler `catch (const std::runtime_error&)` matches the type:
the type is `std::runtime_error`, or has it as an unambiguous public base. -/
def ExnType.is_runtime_error : ExnType → Bool
  | .runtime_error => true
  | .derived _ => true
  | .derived_hidden _ => false
  | .other _ => false

/-- Whether the type is `std::runtime_error` or a class derived from it, in
whatever way. -/
def ExnType.derives_from_runtime_error : ExnType → Bool
  | .runtime_error => true
  | .derived _ => true
  | .derived_hidden _ => true
  | .other _ => false

/-- An exception object. For an object whose type is (derived from)
`std::runtime_error`, `what` is the address its `what()` returns. -/
structure ExnObj where
  type : ExnType
  what : Nat
  deriving DecidableEq, Repr

/-- State of the process as seen by one thread: the byte memory, and the
exceptions the thread is handling, innermost handler first. -/
structure State where
  mem : List Nat
  caught : List ExnObj
  deriving DecidableEq, Repr

/-- How a call ends. -/
inductive Outcome (α : Type) where
  /-- normal return with a value -/
  | ret (v : α) (s : State)
  /-- exit by the exception `e` -/
  | raise (e : ExnObj) (s : State)
  /-- `std::terminate()` was called -/
  | terminate
  /-- undefined behaviour -/
  | undefined
  deriving DecidableEq, Repr

/-! ## The C++ runtime -/

/-- The C string at address `p`: the bytes from `p` up to, not including, the
first NUL. There is none at the null pointer, nor when no NUL follows `p`
inside the memory. -/
def c_str_at (mem : List Nat) (p : Nat) : Option (List Nat) :=
  if p = 0 then none
  else if 0 ∈ mem.drop p then some ((mem.drop p).takeWhile (fun b => b ≠ 0))
  else none

/-- The constructor `std::runtime_error(const char*)`: the object keeps its own
copy of the string, in fresh storage (here: at the end of the memory), and
`what()` returns the address of that copy. Reading a `msg` that is no C string
is undefined behaviour (`none`). -/
def runtime_error_ctor (msg : Nat) (s : State) : Option (ExnObj × State) :=
  match c_str_at s.mem msg with
  | none => none
  | some M =>
    some ({ type := .runtime_error, what := s.mem.length },
          { s with mem := s.mem ++ (M ++ [0]) })

/-- The expression `throw;`: rethrows the exception being handled by the
innermost handler, which stays active; with no exception being handled it
calls `std::terminate()`. -/
def rethrow {α : Type} (s : State) : Outcome α :=
  match s.caught with
  | [] => .terminate
  | e :: _ => .raise e s

/-- Entering a handler that caught `e`. -/
def begin_catch (e : ExnObj) (s : State) : State :=
  { s with caught := e :: s.caught }

/-- Leaving the innermost handler. -/
def end_catch (s : State) : State :=
  { s with caught := s.caught.tail }

/-- A write of the byte `v` to the address `a`. -/
def store (a v : Nat) (s : State) : State :=
  { s with mem := s.mem.set a v }

/-- A sequence of writes, each an address and a byte. -/
def stores : List (Nat × Nat) → State → State
  | [], s => s
  | w :: ws, s => stores ws (store w.1 w.2 s)

/-! ## The two functions of the source -/

/-- The function `pybitwuzla_abort_fun`:
`throw std::runtime_error(msg);` -/
def pybitwuzla_abort_fun (msg : Nat) (s : State) : Outcome Unit :=
  match runtime_error_ctor msg s with
  | none => .undefined
  | some (e, s1) => .raise e s1

/-- The function `pybitwuzla_get_err_msg`:
`try { throw; } catch (const std::runtime_error& e) { return e.what(); }` -/
def pybitwuzla_get_err_msg (s : State) : Outcome Nat :=
  match (rethrow s : Outcome Nat) with
  | .raise e s1 =>
    if e.type.is_runtime_error then
      let s2 := begin_catch e s1
      .ret e.what (end_catch s2)
    else .raise e s1
  | o => o

/-! ## Using the two functions -/

/-- The string a call returned, read at the returned address in the memory the
call left behind; `none` when the call did not return. -/
def extracted_message : Outcome Nat → Option (List Nat)
  | .ret q s => c_str_at s.mem q
  | _ => none

/-- The string extracted by a handler, when one ran. -/
def handler_message (o : Option (Outcome Nat)) : Option (List Nat) :=
  o.bind extracted_message

/-- The solver calls `pybitwuzla_abort_fun(msg)`, an enclosing handler catches
what it threw and calls `pybitwuzla_get_err_msg()`. Gives how that call ends;
`none` when the abort function threw nothing, so that no handler ran. -/
def abort_catch_extract (msg : Nat) (s : State) : Option (Outcome Nat) :=
  match pybitwuzla_abort_fun msg s with
  | .raise e s1 => some (pybitwuzla_get_err_msg (begin_catch e s1))
  | _ => none

/-- The bytes of a text, without terminator. -/
def text_bytes (t : String) : List Nat :=
  t.toList.map Char.toNat

/-- The bytes of a text followed by the terminating NUL. -/
def c_bytes (t : String) : List Nat :=
  text_bytes t ++ [0]

/-- One complete cycle on a thread: abort, catch, extract, read the message at
the returned address, and let the handler complete. Gives the message read and
the state once the handler is left. -/
def abort_catch_cycle (msg : Nat) (s : State) : Option (List Nat × State) :=
  match abort_catch_extract msg s with
  | some (.ret q s1) =>
    match c_str_at s1.mem q with
    | some M => some (M, end_catch s1)
    | none => none
  | _ => none

/-- Inside one handler, call `pybitwuzla_get_err_msg()` `n` times in a row and
read the message after each call; `none` as soon as a call does not return a
readable string. Gives the messages in call order and the final state. -/
def extract_repeatedly : Nat → State → Option (List (List Nat) × State)
  | 0, s => some ([], s)
  | n + 1, s =>
    match pybitwuzla_get_err_msg s with
    | .ret q s1 =>
      match c_str_at s1.mem q with
      | some M =>
        match extract_repeatedly n s1 with
        | some (Ms, s2) => some (M :: Ms, s2)
        | none => none
      | none => none
    | _ => none

/-! ## The lifecycle of a thread -/

/-- What can happen on one thread to the signals of the abort function: calls
of the two functions, and the events of the C++ runtime around them. Code that
runs while an exception is in flight runs inside a destructor. Exceptions
thrown by other statements than the two functions are not part of it. -/
inductive Op where
  /-- a call `pybitwuzla_abort_fun(msg)` -/
  | abort (msg : Nat)
  /-- a call `pybitwuzla_get_err_msg()` -/
  | extract
  /-- a statement `throw;` in the calling code -/
  | rethrow
  /-- a handler catches the exception in flight -/
  | enter_handler
  /-- the innermost handler is left, by completing or by an exception -/
  | leave_handler
  /-- unwinding reaches a destructor, which starts to execute -/
  | enter_destructor
  /-- the destructor returns and unwinding goes on -/
  | leave_destructor
  /-- a call of `std::terminate()`: no handler is found, the exception leaves a
  destructor or a `noexcept` function, or the program calls it -/
  | terminate
  deriving DecidableEq, Repr

/-- Where a thread stands. In both live cases `pending` holds the exceptions in
flight whose unwinding is suspended in a destructor, innermost first. -/
inductive Config where
  /-- code is executing, with the state `s` -/
  | running (pending : List ExnObj) (s : State)
  /-- the exception `e` is in flight and the stack is being unwound -/
  | unwinding (e : ExnObj) (pending : List ExnObj) (s : State)
  /-- `std::terminate()` was called -/
  | terminated
  /-- undefined behaviour occurred -/
  | undefined
  deriving DecidableEq, Repr

/-- Where a thread stands once a call has ended. -/
def Config.of_outcome {α : Type} (pending : List ExnObj) : Outcome α → Config
  | .ret _ s => .running pending s
  | .raise e s => .unwinding e pending s
  | .terminate => .terminated
  | .undefined => .undefined

/-- One operation; `none` when the operation cannot happen where the thread
stands: no statement executes while the stack is unwound outside a destructor,
there is no handler or destructor to leave, nothing is in flight. -/
def step : Config → Op → Option Config
  | .running p s, .abort msg => some (Config.of_outcome p (pybitwuzla_abort_fun msg s))
  | .running p s, .extract => some (Config.of_outcome p (pybitwuzla_get_err_msg s))
  | .running p s, .rethrow => some (Config.of_outcome p (rethrow s : Outcome Unit))
  | .running p s, .leave_handler =>
    match s.caught with
    | [] => none
    | _ :: _ => some (.running p (end_catch s))
  | .running p s, .leave_destructor =>
    match p with
    | [] => none
    | e :: p2 => some (.unwinding e p2 s)
  | .running _ _, .terminate => some .terminated
  | .unwinding e p s, .enter_handler => some (.running p (begin_catch e s))
  | .unwinding e p s, .enter_destructor => some (.running (e :: p) s)
  | .unwinding e p s, .leave_handler =>
    match s.caught with
    | [] => none
    | _ :: _ => some (.unwinding e p (end_catch s))
  | .unwinding _ _ _, .terminate => some .terminated
  | _, _ => none

/-- A sequence of operations. -/
def run : Config → List Op → Option Config
  | c, [] => some c
  | c, op :: ops =>
    match step c op with
    | some c2 => run c2 ops
    | none => none

/-- The exception objects alive on the thread: the one in flight, those whose
unwinding is suspended, and those being handled. One object can stand in the
list several times (rethrown while it is still handled). -/
def signals : Config → List ExnObj
  | .running p s => p ++ s.caught
  | .unwinding e p s => e :: (p ++ s.caught)
  | .terminated => []
  | .undefined => []

/-- Number of signals alive: the distinct objects among `signals`. Two objects
made by the abort function never agree on `what`, as storage is not reused. -/
def live_signals (c : Config) : Nat :=
  (signals c).dedup.length

/-- The discipline of the callers: the abort function is called only while no
signal is alive on the thread, neither handled nor in flight. -/
def abort_only_when_idle : Config → Op → Bool
  | c, .abort _ => decide (signals c = [])
  | _, _ => true

/-- A sequence of operations under the discipline of the callers: `none` also
when an abort is attempted while a signal is alive. -/
def run_disciplined : Config → List Op → Option Config
  | c, [] => some c
  | c, op :: ops =>
    if abort_only_when_idle c op then
      match step c op with
      | some c2 => run_disciplined c2 ops
      | none => none
    else none

/-- The shape of the configurations met under the discipline: all the signals
alive are one and the same object. -/
def single_signal (c : Config) : Prop :=
  ∀ x ∈ signals c, ∀ y ∈ signals c, x = y

/-! ## Two threads -/

/-- How far a thread is in the scenario abort, catch, extract. -/
inductive Phase where
  /-- about to call `pybitwuzla_abort_fun(msg)` -/
  | ready (msg : Nat)
  /-- the exception `e` is in flight -/
  | in_flight (e : ExnObj)
  /-- inside the handler, about to call `pybitwuzla_get_err_msg()` -/
  | handling
  /-- the extractor returned the address `q` -/
  | finished (q : Nat)
  /-- a call ended in another way than the scenario expects -/
  | failed
  deriving DecidableEq, Repr

/-- A thread: the exceptions it is handling, which the C++ runtime keeps per
thread, and its phase. -/
structure Thread where
  caught : List ExnObj
  phase : Phase
  deriving DecidableEq, Repr

/-- Two threads of one process: the memory is shared. -/
structure World where
  mem : List Nat
  first : Thread
  second : Thread
  deriving DecidableEq, Repr

/-- The next step of a thread, run on the shared memory and on the handler
stack of that thread; gives the memory and the thread after the step. A call
of one of the two functions is one step. -/
def thread_step (mem : List Nat) (t : Thread) : List Nat × Thread :=
  match t.phase with
  | .ready msg =>
    match pybitwuzla_abort_fun msg ⟨mem, t.caught⟩ with
    | .raise e s1 => (s1.mem, ⟨s1.caught, .in_flight e⟩)
    | _ => (mem, ⟨t.caught, .failed⟩)
  | .in_flight e =>
    ((begin_catch e ⟨mem, t.caught⟩).mem,
      ⟨(begin_catch e ⟨mem, t.caught⟩).caught, .handling⟩)
  | .handling =>
    match pybitwuzla_get_err_msg ⟨mem, t.caught⟩ with
    | .ret q s1 => (s1.mem, ⟨s1.caught, .finished q⟩)
    | _ => (mem, ⟨t.caught, .failed⟩)
  | .finished q => (mem, ⟨t.caught, .finished q⟩)
  | .failed => (mem, ⟨t.caught, .failed⟩)

/-- One step of the process: the scheduler picks the second thread (`true`) or
the first (`false`). -/
def world_step (w : World) (pick_second : Bool) : World :=
  if pick_second then
    { w with mem := (thread_step w.mem w.second).1,
             second := (thread_step w.mem w.second).2 }
  else
    { w with mem := (thread_step w.mem w.first).1,
             first := (thread_step w.mem w.first).2 }

/-- The process under a schedule. -/
def run_schedule : World → List Bool → World
  | w, [] => w
  | w, b :: bs => run_schedule (world_step w b) bs

/-- Number of steps of the scenario a thread has behind it. -/
def Phase.rank : Phase → Nat
  | .ready _ => 0
  | .in_flight _ => 1
  | .handling => 2
  | .finished _ => 3
  | .failed => 0

/-- What holds of a thread whose message is `M`, at every point of the
scenario, in the memory `mem`. -/
def thread_ok (M : List Nat) (mem : List Nat) (t : Thread) : Prop :=
  match t.phase with
  | .ready msg => c_str_at mem msg = some M
  | .in_flight e => e.type.is_runtime_error = true ∧ c_str_at mem e.what = some M
  | .handling =>
    ∃ e rest, t.caught = e :: rest ∧ e.type.is_runtime_error = true ∧
      c_str_at mem e.what = some M
  | .finished q => c_str_at mem q = some M
  | .failed => False

/-! ## C strings in memory -/

theorem takeWhile_ne_zero_append (M rest : List Nat) (hM : 0 ∉ M) :
    (M ++ 0 :: rest).takeWhile (fun b => b ≠ 0) = M := by
  induction M with
  | nil => simp
  | cons a M ih =>
    have ha : a ≠ 0 := fun h => hM (by simp [h])
    have hM2 : 0 ∉ M := fun h => hM (by simp [h])
    have h2 := ih hM2
    simp only [ne_eq, decide_not] at h2
    simp [List.takeWhile_cons, ha, h2]

theorem takeWhile_ne_zero_of_mem (A B : List Nat) (hA : 0 ∈ A) :
    (A ++ B).takeWhile (fun b => b ≠ 0) = A.takeWhile (fun b => b ≠ 0) := by
  induction A with
  | nil => simp at hA
  | cons a A ih =>
    by_cases ha : a = 0
    · simp [List.takeWhile_cons, ha]
    · have hA2 : 0 ∈ A := by
        rcases List.mem_cons.mp hA with h | h
        · exact absurd h.symm ha
        · exact h
      have h2 := ih hA2
      simp only [ne_eq, decide_not] at h2
      simp [List.takeWhile_cons, ha, h2]

theorem zero_not_mem_takeWhile (A : List Nat) :
    0 ∉ A.takeWhile (fun b => b ≠ 0) := by
  intro h
  have := List.mem_takeWhile_imp h
  simp at this

/-- What a successful read says: the address is not null and lies inside the
memory, and a NUL follows it. -/
theorem c_str_at_some {mem : List Nat} {p : Nat} {M : List Nat}
    (h : c_str_at mem p = some M) :
    p ≠ 0 ∧ p < mem.length ∧ 0 ∈ mem.drop p ∧
      M = (mem.drop p).takeWhile (fun b => b ≠ 0) := by
  unfold c_str_at at h
  by_cases hp : p = 0
  · simp [hp] at h
  · by_cases hz : 0 ∈ mem.drop p
    · simp only [hp, hz, if_true, if_false, Option.some.injEq] at h
      refine ⟨hp, ?_, hz, h.symm⟩
      by_contra hlt
      have : mem.drop p = [] := List.drop_eq_nil_of_le (Nat.le_of_not_lt hlt)
      rw [this] at hz
      simp at hz
    · simp [hp, hz] at h

/-- A string read from memory holds no NUL. -/
theorem c_str_at_no_nul {mem : List Nat} {p : Nat} {M : List Nat}
    (h : c_str_at mem p = some M) : 0 ∉ M := by
  rw [(c_str_at_some h).2.2.2]
  exact zero_not_mem_takeWhile _

/-- A string stored right after a non-empty block `pre`, followed by a NUL, is
read back at the address `pre.length`. -/
theorem c_str_at_append (pre M rest : List Nat) (hpre : pre.length ≠ 0)
    (hM : 0 ∉ M) : c_str_at (pre ++ (M ++ 0 :: rest)) pre.length = some M := by
  unfold c_str_at
  have hd : (pre ++ (M ++ 0 :: rest)).drop pre.length = M ++ 0 :: rest := by
    simp
  rw [hd, takeWhile_ne_zero_append M rest hM]
  simp [hpre]

/-- Appending to the memory does not change the strings already in it. -/
theorem c_str_at_extend {mem : List Nat} {p : Nat} {M : List Nat}
    (ext : List Nat) (h : c_str_at mem p = some M) :
    c_str_at (mem ++ ext) p = some M := by
  obtain ⟨hp, hlt, hz, hM⟩ := c_str_at_some h
  unfold c_str_at
  have hd : (mem ++ ext).drop p = mem.drop p ++ ext :=
    List.drop_append_of_le_length (Nat.le_of_lt hlt)
  rw [hd]
  have hz2 : 0 ∈ mem.drop p ++ ext := List.mem_append.mpr (Or.inl hz)
  simp only [hp, hz2, if_true, if_false]
  rw [takeWhile_ne_zero_of_mem _ _ hz, hM]

/-! ## Lemmas on the two functions -/

/-- On a C string, the abort function copies it to the end of the memory and
exits by a `std::runtime_error` whose `what()` is the address of the copy. -/
theorem abort_fun_raise {s : State} {msg : Nat} {M : List Nat}
    (hM : c_str_at s.mem msg = some M) :
    pybitwuzla_abort_fun msg s =
      .raise { type := .runtime_error, what := s.mem.length }
        { s with mem := s.mem ++ (M ++ [0]) } := by
  simp [pybitwuzla_abort_fun, runtime_error_ctor, hM]

/-- The copy made by the abort function reads back as the original string. -/
theorem copy_reads_back {mem : List Nat} {msg : Nat} {M : List Nat}
    (hM : c_str_at mem msg = some M) (rest : List Nat) :
    c_str_at (mem ++ (M ++ 0 :: rest)) mem.length = some M := by
  have hlen : mem.length ≠ 0 := by
    have := (c_str_at_some hM).2.1
    omega
  exact c_str_at_append mem M rest hlen (c_str_at_no_nul hM)

/-- While an exception matched by `catch (const std::runtime_error&)` is being
handled, the extractor returns its `what()` and leaves the state as it was. -/
theorem get_err_msg_handling {s : State} {e : ExnObj} {rest : List ExnObj}
    (hc : s.caught = e :: rest) (ht : e.type.is_runtime_error = true) :
    pybitwuzla_get_err_msg s = .ret e.what s := by
  cases s with
  | mk mem caught =>
    simp only at hc
    subst hc
    simp [pybitwuzla_get_err_msg, rethrow, ht, begin_catch, end_catch]

/-- While an exception of another type is being handled, the extractor exits by
that exception. -/
theorem get_err_msg_other {s : State} {e : ExnObj} {rest : List ExnObj}
    (hc : s.caught = e :: rest) (ht : e.type.is_runtime_error = false) :
    pybitwuzla_get_err_msg s = .raise e s := by
  simp [pybitwuzla_get_err_msg, rethrow, hc, ht]

/-- With no exception being handled, the extractor calls `std::terminate`. -/
theorem get_err_msg_idle {s : State} (hc : s.caught = []) :
    pybitwuzla_get_err_msg s = .terminate := by
  simp [pybitwuzla_get_err_msg, rethrow, hc]

/-- Abort, catch, extract: the call returns the address of the copy, in the
state the handler was entered with. -/
theorem abort_catch_extract_eq {s : State} {msg : Nat} {M : List Nat}
    (hM : c_str_at s.mem msg = some M) :
    abort_catch_extract msg s =
      some (.ret s.mem.length
        (begin_catch { type := .runtime_error, what := s.mem.length }
          { s with mem := s.mem ++ (M ++ [0]) })) := by
  unfold abort_catch_extract
  rw [abort_fun_raise hM]
  simp only
  rw [@get_err_msg_handling _ { type := .runtime_error, what := s.mem.length }
    s.caught rfl rfl]

/-- Writes below the address `pre.length` change the block `pre` and nothing
after it; the handler stack is not touched. -/
theorem stores_below (ws : List (Nat × Nat)) :
    ∀ (pre suf : List Nat) (caught : List ExnObj),
      (∀ w ∈ ws, w.1 < pre.length) →
      ∃ pre2 : List Nat, pre2.length = pre.length ∧
        stores ws ⟨pre ++ suf, caught⟩ = ⟨pre2 ++ suf, caught⟩ := by
  induction ws with
  | nil =>
    intro pre suf caught _
    exact ⟨pre, rfl, rfl⟩
  | cons w ws ih =>
    intro pre suf caught h
    have hw : w.1 < pre.length := h w (List.mem_cons_self _ _)
    have hws : ∀ x ∈ ws, x.1 < (pre.set w.1 w.2).length := by
      intro x hx
      rw [List.length_set]
      exact h x (List.mem_cons_of_mem _ hx)
    obtain ⟨pre2, hlen, heq⟩ := ih (pre.set w.1 w.2) suf caught hws
    refine ⟨pre2, by rw [hlen, List.length_set], ?_⟩
    simp only [stores, store]
    rw [List.set_append_left _ _ hw]
    exact heq

/-- Writes do not touch the handler stack. -/
theorem stores_caught (ws : List (Nat × Nat)) :
    ∀ s : State, (stores ws s).caught = s.caught := by
  induction ws with
  | nil => intro s; rfl
  | cons w ws ih => intro s; simp [stores, ih, store]

/-- One whole cycle on a C string: the message read is the string, and the
state after the handler is the state before the abort plus the copy. -/
theorem abort_catch_cycle_eq {s : State} {msg : Nat} {M : List Nat}
    (hM : c_str_at s.mem msg = some M) :
    abort_catch_cycle msg s = some (M, { s with mem := s.mem ++ (M ++ [0]) }) := by
  unfold abort_catch_cycle
  rw [abort_catch_extract_eq hM]
  simp only [begin_catch]
  rw [copy_reads_back hM []]
  simp [end_catch]

/-- The extractor called `n` times in one handler returns the same message
`n` times and leaves the state as it was. -/
theorem extract_repeatedly_eq {s : State} {e : ExnObj} {rest : List ExnObj}
    {M : List Nat} (hc : s.caught = e :: rest)
    (ht : e.type.is_runtime_error = true) (hM : c_str_at s.mem e.what = some M) :
    ∀ n, extract_repeatedly n s = some (List.replicate n M, s) := by
  intro n
  induction n with
  | zero => rfl
  | succ n ih =>
    simp only [extract_repeatedly]
    rw [get_err_msg_handling hc ht]
    simp only [hM, ih, List.replicate_succ]

/-! ## Lemmas on the lifecycle -/

/-- A list whose members are all equal has at most one distinct member. -/
theorem dedup_length_le_one (l : List ExnObj)
    (h : ∀ x ∈ l, ∀ y ∈ l, x = y) : l.dedup.length ≤ 1 := by
  have hnd : l.dedup.Nodup := List.nodup_dedup l
  have hall : ∀ x ∈ l.dedup, ∀ y ∈ l.dedup, x = y := fun x hx y hy =>
    h x (List.mem_dedup.mp hx) y (List.mem_dedup.mp hy)
  cases hl : l.dedup with
  | nil => simp
  | cons a r =>
    cases r with
    | nil => simp
    | cons b r2 =>
      rw [hl] at hnd hall
      have hab : a = b := hall a (by simp) b (by simp)
      rw [hab] at hnd
      simp at hnd

/-- No signal is alive exactly when the list of signals is empty. -/
theorem live_signals_eq_zero {c : Config} :
    live_signals c = 0 ↔ signals c = [] := by
  unfold live_signals
  rw [List.length_eq_zero]
  constructor
  · intro h
    cases hs : signals c with
    | nil => rfl
    | cons a r =>
      have : a ∈ (signals c).dedup := List.mem_dedup.mpr (by simp [hs])
      rw [h] at this
      simp at this
  · intro h
    rw [h]
    rfl

/-- The extractor makes no signal: the signals after the call were there
before it. -/
theorem signals_get_err_msg (p : List ExnObj) (s : State) :
    ∀ x ∈ signals (Config.of_outcome p (pybitwuzla_get_err_msg s)),
      x ∈ signals (.running p s) := by
  intro x hx
  cases hc : s.caught with
  | nil =>
    rw [get_err_msg_idle hc] at hx
    simp [Config.of_outcome, signals] at hx
  | cons e rest =>
    cases ht : e.type.is_runtime_error with
    | true =>
      rw [get_err_msg_handling hc ht] at hx
      exact hx
    | false =>
      rw [get_err_msg_other hc ht] at hx
      simp only [Config.of_outcome, signals, List.mem_cons, List.mem_append, hc] at hx ⊢
      tauto

/-- A statement `throw;` makes no signal either. -/
theorem signals_rethrow (p : List ExnObj) (s : State) :
    ∀ x ∈ signals (Config.of_outcome p (rethrow s : Outcome Unit)),
      x ∈ signals (.running p s) := by
  intro x hx
  cases hc : s.caught with
  | nil => simp [rethrow, hc, Config.of_outcome, signals] at hx
  | cons e rest =>
    simp only [rethrow, hc, Config.of_outcome, signals, List.mem_cons,
      List.mem_append] at hx ⊢
    tauto

/-- Every operation but an abort makes no signal. -/
theorem signals_step_subset {c c2 : Config} {op : Op}
    (hop : ∀ msg, op ≠ .abort msg) (hs : step c op = some c2) :
    ∀ x ∈ signals c2, x ∈ signals c := by
  cases c with
  | running p s =>
    cases op with
    | abort msg => exact absurd rfl (hop msg)
    | extract =>
      simp only [step, Option.some.injEq] at hs
      subst hs
      exact signals_get_err_msg p s
    | rethrow =>
      simp only [step, Option.some.injEq] at hs
      subst hs
      exact signals_rethrow p s
    | enter_handler => simp [step] at hs
    | leave_handler =>
      cases hc : s.caught with
      | nil => simp [step, hc] at hs
      | cons e rest =>
        simp only [step, hc, Option.some.injEq] at hs
        subst hs
        intro x hx
        simp only [signals, end_catch, hc, List.tail_cons, List.mem_append,
          List.mem_cons] at hx ⊢
        tauto
    | enter_destructor => simp [step] at hs
    | leave_destructor =>
      cases p with
      | nil => simp [step] at hs
      | cons e p2 =>
        simp only [step, Option.some.injEq] at hs
        subst hs
        intro x hx
        simpa [signals] using hx
    | terminate =>
      simp only [step, Option.some.injEq] at hs
      subst hs
      intro x hx
      simp [signals] at hx
  | unwinding e p s =>
    cases op with
    | abort msg => simp [step] at hs
    | extract => simp [step] at hs
    | rethrow => simp [step] at hs
    | enter_handler =>
      simp only [step, Option.some.injEq] at hs
      subst hs
      intro x hx
      simp only [signals, begin_catch, List.mem_append, List.mem_cons] at hx ⊢
      tauto
    | leave_handler =>
      cases hc : s.caught with
      | nil => simp [step, hc] at hs
      | cons e2 rest =>
        simp only [step, hc, Option.some.injEq] at hs
        subst hs
        intro x hx
        simp only [signals, end_catch, hc, List.tail_cons, List.mem_append,
          List.mem_cons] at hx ⊢
        tauto
    | enter_destructor =>
      simp only [step, Option.some.injEq] at hs
      subst hs
      intro x hx
      simpa [signals] using hx
    | leave_destructor => simp [step] at hs
    | terminate =>
      simp only [step, Option.some.injEq] at hs
      subst hs
      intro x hx
      simp [signals] at hx
  | terminated => cases op <;> simp [step] at hs
  | undefined => cases op <;> simp [step] at hs

/-- An abort raised while no signal is alive leaves at most the one signal it
makes. -/
theorem signals_abort_idle {c c2 : Config} {msg : Nat}
    (hid : signals c = []) (hs : step c (.abort msg) = some c2) :
    (signals c2).length ≤ 1 := by
  cases c with
  | running p s =>
    simp only [signals, List.append_eq_nil] at hid
    obtain ⟨hp, hc⟩ := hid
    simp only [step, Option.some.injEq] at hs
    subst hs
    simp only [pybitwuzla_abort_fun, runtime_error_ctor]
    cases hread : c_str_at s.mem msg with
    | none => simp [Config.of_outcome, signals]
    | some M => simp [Config.of_outcome, signals, hp, hc]
  | unwinding e p s => simp [step] at hs
  | terminated => simp [step] at hs
  | undefined => simp [step] at hs

/-- Under the discipline, one step keeps the single-signal shape. -/
theorem single_signal_step {c c2 : Config} {op : Op} (hinv : single_signal c)
    (hd : abort_only_when_idle c op = true) (hs : step c op = some c2) :
    single_signal c2 := by
  by_cases hop : ∃ msg, op = .abort msg
  · obtain ⟨msg, rfl⟩ := hop
    have hid : signals c = [] := by simpa [abort_only_when_idle] using hd
    have hlen := signals_abort_idle hid hs
    intro x hx y hy
    cases hl : signals c2 with
    | nil => rw [hl] at hx; simp at hx
    | cons a r =>
      cases r with
      | nil =>
        rw [hl] at hx hy
        simp only [List.mem_singleton] at hx hy
        rw [hx, hy]
      | cons b r2 =>
        rw [hl] at hlen
        simp at hlen
  · have hop2 : ∀ msg, op ≠ .abort msg := fun msg h => hop ⟨msg, h⟩
    have hsub := signals_step_subset hop2 hs
    intro x hx y hy
    exact hinv x (hsub x hx) y (hsub y hy)

/-- Under the discipline, a whole run keeps the single-signal shape. -/
theorem single_signal_run (ops : List Op) :
    ∀ {c c2 : Config}, single_signal c → run_disciplined c ops = some c2 →
      single_signal c2 := by
  induction ops with
  | nil =>
    intro c c2 hinv hr
    simp only [run_disciplined, Option.some.injEq] at hr
    subst hr
    exact hinv
  | cons op ops ih =>
    intro c c2 hinv hr
    simp only [run_disciplined] at hr
    by_cases hd : abort_only_when_idle c op = true
    · simp only [hd, if_true] at hr
      cases hs : step c op with
      | none => simp [hs] at hr
      | some c1 =>
        simp only [hs] at hr
        exact ih (single_signal_step hinv hd hs) hr
    · simp [hd] at hr

/-- A configuration of the single-signal shape has at most one signal alive. -/
theorem single_signal_live {c : Config} (h : single_signal c) :
    live_signals c ≤ 1 :=
  dedup_length_le_one (signals c) h

/-- A run under the discipline is a run. -/
theorem run_of_run_disciplined (ops : List Op) :
    ∀ {c c2 : Config}, run_disciplined c ops = some c2 → run c ops = some c2 := by
  induction ops with
  | nil => intro c c2 h; simpa [run_disciplined, run] using h
  | cons op ops ih =>
    intro c c2 h
    simp only [run_disciplined] at h
    by_cases hd : abort_only_when_idle c op = true
    · simp only [hd, if_true] at h
      cases hs : step c op with
      | none => simp [hs] at h
      | some c1 =>
        simp only [hs] at h
        simp only [run, hs]
        exact ih h
    · simp [hd] at h

/-- Under the discipline, a step that brings a signal to life is an abort, and
a step after which no signal is left is the leaving of the last handler in
normal execution, which leaves the thread idle, or ends in `std::terminate`. -/
theorem single_signal_transitions {c c2 : Config} {op : Op}
    (hd : abort_only_when_idle c op = true) (hs : step c op = some c2) :
    (signals c = [] → signals c2 ≠ [] → ∃ msg, op = .abort msg) ∧
    (signals c ≠ [] → signals c2 = [] →
      (op = .leave_handler ∧ ∃ m, c2 = .running [] ⟨m, []⟩) ∨ c2 = .terminated) := by
  constructor
  · intro h0 h1
    by_contra hop
    have hop2 : ∀ msg, op ≠ .abort msg := fun msg h => hop ⟨msg, h⟩
    have hsub := signals_step_subset hop2 hs
    apply h1
    cases hl : signals c2 with
    | nil => rfl
    | cons a r =>
      have := hsub a (by simp [hl])
      rw [h0] at this
      simp at this
  · intro h1 h0
    cases c with
    | running p s =>
      cases op with
      | abort msg =>
        have : signals (.running p s) = [] := by simpa [abort_only_when_idle] using hd
        exact absurd this h1
      | extract =>
        simp only [step, Option.some.injEq] at hs
        subst hs
        cases hc : s.caught with
        | nil =>
          rw [get_err_msg_idle hc]
          exact Or.inr rfl
        | cons e rest =>
          cases ht : e.type.is_runtime_error with
          | true =>
            rw [get_err_msg_handling hc ht] at h0
            exact absurd h0 h1
          | false =>
            rw [get_err_msg_other hc ht] at h0
            simp [Config.of_outcome, signals] at h0
      | rethrow =>
        simp only [step, Option.some.injEq] at hs
        subst hs
        cases hc : s.caught with
        | nil =>
          simp only [rethrow, hc]
          exact Or.inr rfl
        | cons e rest => simp [rethrow, hc, Config.of_outcome, signals] at h0
      | enter_handler => simp [step] at hs
      | leave_handler =>
        cases hc : s.caught with
        | nil => simp [step, hc] at hs
        | cons e rest =>
          simp only [step, hc, Option.some.injEq] at hs
          subst hs
          simp only [signals, end_catch, hc, List.tail_cons,
            List.append_eq_nil] at h0
          refine Or.inl ⟨rfl, s.mem, ?_⟩
          simp [end_catch, hc, h0.1, h0.2]
      | enter_destructor => simp [step] at hs
      | leave_destructor =>
        cases p with
        | nil => simp [step] at hs
        | cons e p2 =>
          simp only [step, Option.some.injEq] at hs
          subst hs
          simp [signals] at h0
      | terminate =>
        simp only [step, Option.some.injEq] at hs
        exact Or.inr hs.symm
    | unwinding e p s =>
      cases op with
      | abort msg => simp [step] at hs
      | extract => simp [step] at hs
      | rethrow => simp [step] at hs
      | enter_handler =>
        simp only [step, Option.some.injEq] at hs
        subst hs
        simp [signals, begin_catch] at h0
      | leave_handler =>
        cases hc : s.caught with
        | nil => simp [step, hc] at hs
        | cons e2 rest =>
          simp only [step, hc, Option.some.injEq] at hs
          subst hs
          simp [signals] at h0
      | enter_destructor =>
        simp only [step, Option.some.injEq] at hs
        subst hs
        simp [signals] at h0
      | leave_destructor => simp [step] at hs
      | terminate =>
        simp only [step, Option.some.injEq] at hs
        exact Or.inr hs.symm
    | terminated => cases op <;> simp [step] at hs
    | undefined => cases op <;> simp [step] at hs

/-! ## Lemmas on two threads -/

/-- What holds of a thread goes on holding when memory is appended. -/
theorem thread_ok_extend {M mem : List Nat} {t : Thread} (ext : List Nat)
    (h : thread_ok M mem t) : thread_ok M (mem ++ ext) t := by
  cases t with
  | mk caught phase =>
    cases phase with
    | ready msg => exact c_str_at_extend ext h
    | in_flight e => exact ⟨h.1, c_str_at_extend ext h.2⟩
    | handling =>
      obtain ⟨e, rest, hc, ht, hM⟩ := h
      exact ⟨e, rest, hc, ht, c_str_at_extend ext hM⟩
    | finished q => exact c_str_at_extend ext h
    | failed => exact h

/-- A step of a thread only appends to the memory, keeps what holds of the
thread, and takes it one phase further until it has finished. -/
theorem thread_step_ok {M mem : List Nat} {t : Thread} (h : thread_ok M mem t) :
    (∃ ext, (thread_step mem t).1 = mem ++ ext) ∧
    thread_ok M (thread_step mem t).1 (thread_step mem t).2 ∧
    (thread_step mem t).2.phase.rank = min 3 (t.phase.rank + 1) := by
  cases t with
  | mk caught phase =>
    cases phase with
    | ready msg =>
      have hM : c_str_at (⟨mem, caught⟩ : State).mem msg = some M := h
      have hr := abort_fun_raise hM
      simp only [thread_step, hr]
      exact ⟨⟨M ++ [0], rfl⟩, ⟨rfl, copy_reads_back hM []⟩, rfl⟩
    | in_flight e =>
      simp only [thread_step, begin_catch]
      exact ⟨⟨[], by simp⟩, ⟨e, caught, rfl, h.1, h.2⟩, rfl⟩
    | handling =>
      obtain ⟨e, rest, hc, ht, hM⟩ := h
      have hc2 : (⟨mem, caught⟩ : State).caught = e :: rest := hc
      have hr := get_err_msg_handling hc2 ht
      simp only [thread_step, hr]
      exact ⟨⟨[], by simp⟩, hM, rfl⟩
    | finished q =>
      simp only [thread_step]
      exact ⟨⟨[], by simp⟩, h, rfl⟩
    | failed => exact absurd h (by simp [thread_ok])

/-- Under every schedule the memory is only appended to, what holds of the two
threads goes on holding, and each thread is as many phases further as it was
given steps, until it has finished. -/
theorem run_schedule_ok (M1 M2 : List Nat) (sched : List Bool) :
    ∀ w : World, thread_ok M1 w.mem w.first → thread_ok M2 w.mem w.second →
      (∃ ext, (run_schedule w sched).mem = w.mem ++ ext) ∧
      thread_ok M1 (run_schedule w sched).mem (run_schedule w sched).first ∧
      thread_ok M2 (run_schedule w sched).mem (run_schedule w sched).second ∧
      (run_schedule w sched).first.phase.rank
        = min 3 (w.first.phase.rank + sched.count false) ∧
      (run_schedule w sched).second.phase.rank
        = min 3 (w.second.phase.rank + sched.count true) := by
  induction sched with
  | nil =>
    intro w h1 h2
    have hr1 : w.first.phase.rank ≤ 3 := by
      cases hph : w.first.phase <;> simp [Phase.rank]
    have hr2 : w.second.phase.rank ≤ 3 := by
      cases hph : w.second.phase <;> simp [Phase.rank]
    refine ⟨⟨[], by simp [run_schedule]⟩, h1, h2, ?_, ?_⟩
    · simp only [run_schedule, List.count_nil]
      omega
    · simp only [run_schedule, List.count_nil]
      omega
  | cons b bs ih =>
    intro w h1 h2
    cases b with
    | false =>
      obtain ⟨⟨ext, hext⟩, hok, hrank⟩ := thread_step_ok h1
      have h2b : thread_ok M2 (thread_step w.mem w.first).1 w.second := by
        rw [hext]
        exact thread_ok_extend ext h2
      obtain ⟨⟨ext2, hext2⟩, ha, hb, hc, hd⟩ :=
        ih (world_step w false) (by simpa [world_step] using hok)
          (by simpa [world_step] using h2b)
      simp only [run_schedule]
      refine ⟨⟨ext ++ ext2, ?_⟩, ha, hb, ?_, ?_⟩
      · rw [hext2]
        simp [world_step, hext]
      · rw [hc]
        simp only [world_step, Bool.false_eq_true, if_false, hrank,
          List.count_cons_self]
        omega
      · rw [hd]
        simp [world_step]
    | true =>
      obtain ⟨⟨ext, hext⟩, hok, hrank⟩ := thread_step_ok h2
      have h1b : thread_ok M1 (thread_step w.mem w.second).1 w.first := by
        rw [hext]
        exact thread_ok_extend ext h1
      obtain ⟨⟨ext2, hext2⟩, ha, hb, hc, hd⟩ :=
        ih (world_step w true) (by simpa [world_step] using h1b)
          (by simpa [world_step] using hok)
      simp only [run_schedule]
      refine ⟨⟨ext ++ ext2, ?_⟩, ha, hb, ?_, ?_⟩
      · rw [hext2]
        simp [world_step, hext]
      · rw [hc]
        simp [world_step]
      · rw [hd]
        simp only [world_step, if_true, hrank, List.count_cons_self]
        omega

/-- A thread of rank 3 has finished. -/
theorem finished_of_rank {ph : Phase} (h : ph.rank = 3) : ∃ q, ph = .finished q := by
  cases ph with
  | finished q => exact ⟨q, rfl⟩
  | ready msg => simp [Phase.rank] at h
  | in_flight e => simp [Phase.rank] at h
  | handling => simp [Phase.rank] at h
  | failed => simp [Phase.rank] at h

/-! ## Claims -/

/-- C1: round trip. For every C string `M` at `msg`, whatever the bytes of `M`
and whatever the thread was doing, raising by `pybitwuzla_abort_fun(msg)`,
catching, and calling `pybitwuzla_get_err_msg()` in the handler returns an
address at which exactly `M` is read. -/
theorem roundtrip (s : State) (msg : Nat) (M : List Nat)
    (hM : c_str_at s.mem msg = some M) :
    handler_message (abort_catch_extract msg s) = some M := by
  rw [abort_catch_extract_eq hM]
  exact copy_reads_back hM []

/-- C1, at the two messages of the specification and at a message with
formatting characters and a newline. -/
theorem roundtrip_witness :
    (c_str_at (0 :: c_bytes "division by zero in bit-blasting") 1
        = some (text_bytes "division by zero in bit-blasting") ∧
      handler_message
        (abort_catch_extract 1 ⟨0 :: c_bytes "division by zero in bit-blasting", []⟩)
        = some (text_bytes "division by zero in bit-blasting")) ∧
    (c_str_at (0 :: c_bytes "") 1 = some [] ∧
      handler_message (abort_catch_extract 1 ⟨0 :: c_bytes "", []⟩) = some []) ∧
    (c_str_at (0 :: c_bytes "%s%n\n") 1 = some [37, 115, 37, 110, 10] ∧
      handler_message (abort_catch_extract 1 ⟨0 :: c_bytes "%s%n\n", []⟩)
        = some [37, 115, 37, 110, 10]) :=
  ⟨⟨by decide, roundtrip _ _ _ (by decide)⟩,
   ⟨by decide, roundtrip _ _ _ (by decide)⟩,
   ⟨by decide, roundtrip _ _ _ (by decide)⟩⟩

/-- C2: for every C string `M` at `msg` and every prior state, the call
`pybitwuzla_abort_fun(msg)` does not return: it exits by one exception of type
`std::runtime_error` whose `what()` reads exactly `M`; the handler stack and
the memory that existed before the call are as they were. -/
theorem abort_fun_never_returns (s : State) (msg : Nat) (M : List Nat)
    (hM : c_str_at s.mem msg = some M) :
    ∃ e s1, pybitwuzla_abort_fun msg s = .raise e s1 ∧
      e.type = .runtime_error ∧
      c_str_at s1.mem e.what = some M ∧
      s1.caught = s.caught ∧ s1.mem.take s.mem.length = s.mem ∧
      ∀ v s2, pybitwuzla_abort_fun msg s ≠ .ret v s2 := by
  refine ⟨_, _, abort_fun_raise hM, rfl, copy_reads_back hM [], rfl, ?_, ?_⟩
  · simp
  · intro v s2 h
    rw [abort_fun_raise hM] at h
    cases h

/-- C2, at a state that is already handling another exception. -/
theorem abort_fun_never_returns_witness :
    c_str_at (0 :: c_bytes "unsat core") 1 = some (text_bytes "unsat core") ∧
    ∃ e s1,
      pybitwuzla_abort_fun 1 ⟨0 :: c_bytes "unsat core", [⟨.other 7, 0⟩]⟩
        = .raise e s1 ∧
      e.type = .runtime_error ∧
      c_str_at s1.mem e.what = some (text_bytes "unsat core") ∧
      s1.caught = [⟨.other 7, 0⟩] ∧
      s1.mem.take (0 :: c_bytes "unsat core").length = 0 :: c_bytes "unsat core" ∧
      ∀ v s2,
        pybitwuzla_abort_fun 1 ⟨0 :: c_bytes "unsat core", [⟨.other 7, 0⟩]⟩
          ≠ .ret v s2 :=
  ⟨by decide,
   abort_fun_never_returns ⟨0 :: c_bytes "unsat core", [⟨.other 7, 0⟩]⟩ 1
     (text_bytes "unsat core") (by decide)⟩

/-- C3 as stated fails: with no exception being handled, the call
`pybitwuzla_get_err_msg()` raises no error at all, it calls `std::terminate`. -/
theorem get_err_msg_idle_no_error :
    pybitwuzla_get_err_msg ⟨[], []⟩ = .terminate ∧
    ¬ ∃ e s1, pybitwuzla_get_err_msg ⟨[], []⟩ = .raise e s1 := by
  constructor
  · rfl
  · rintro ⟨e, s1, h⟩
    cases h

/-- C3, amended: with no exception being handled, `pybitwuzla_get_err_msg()`
calls `std::terminate`; it returns no message, and raises no error. -/
theorem get_err_msg_idle_terminates (s : State) (hc : s.caught = []) :
    pybitwuzla_get_err_msg s = .terminate ∧
    extracted_message (pybitwuzla_get_err_msg s) = none := by
  rw [get_err_msg_idle hc]
  exact ⟨rfl, rfl⟩

/-- C3, amended, in a memory that holds a message nobody raised. -/
theorem get_err_msg_idle_terminates_witness :
    (⟨0 :: c_bytes "stale", []⟩ : State).caught = [] ∧
    pybitwuzla_get_err_msg ⟨0 :: c_bytes "stale", []⟩ = .terminate ∧
    extracted_message (pybitwuzla_get_err_msg ⟨0 :: c_bytes "stale", []⟩) = none :=
  ⟨rfl, get_err_msg_idle_terminates ⟨0 :: c_bytes "stale", []⟩ rfl⟩

/-- C4: two cycles in a row on one thread. The first cycle reads `M1` and
leaves the handler stack as it found it; after it, whatever the caller writes
to memory (so also when the same buffer is reused), a second cycle on a C
string `M2` reads exactly `M2`. -/
theorem sequential_cycles_independent (s : State) (p1 : Nat) (M1 : List Nat)
    (h1 : c_str_at s.mem p1 = some M1) :
    ∃ s1, abort_catch_cycle p1 s = some (M1, s1) ∧ s1.caught = s.caught ∧
      ∀ (ws : List (Nat × Nat)) (p2 : Nat) (M2 : List Nat),
        c_str_at (stores ws s1).mem p2 = some M2 →
        ∃ s2, abort_catch_cycle p2 (stores ws s1) = some (M2, s2) ∧
          s2.caught = s.caught := by
  refine ⟨_, abort_catch_cycle_eq h1, rfl, ?_⟩
  intro ws p2 M2 h2
  refine ⟨_, abort_catch_cycle_eq h2, ?_⟩
  simp [stores_caught]

/-- C4, with the second message written into the buffer of the first. -/
theorem sequential_cycles_independent_witness :
    c_str_at (0 :: c_bytes "ab") 1 = some (text_bytes "ab") ∧
    ∃ s1, abort_catch_cycle 1 ⟨0 :: c_bytes "ab", []⟩ = some (text_bytes "ab", s1) ∧
      c_str_at (stores [(1, 120), (2, 0)] s1).mem 1 = some (text_bytes "x") ∧
      ∃ s2, abort_catch_cycle 1 (stores [(1, 120), (2, 0)] s1)
          = some (text_bytes "x", s2) ∧
        s2.caught = [] := by
  refine ⟨by decide, ?_⟩
  obtain ⟨s1, hs1, _, h⟩ :=
    sequential_cycles_independent ⟨0 :: c_bytes "ab", []⟩ 1 (text_bytes "ab") (by decide)
  have hs : s1 = ⟨0 :: c_bytes "ab" ++ (text_bytes "ab" ++ [0]), []⟩ := by
    have h0 : abort_catch_cycle 1 ⟨0 :: c_bytes "ab", []⟩
        = some (text_bytes "ab", ⟨0 :: c_bytes "ab" ++ (text_bytes "ab" ++ [0]), []⟩) := by
      decide
    rw [h0] at hs1
    simp only [Option.some.injEq, Prod.mk.injEq] at hs1
    exact hs1.2.symm
  have hr : c_str_at (stores [(1, 120), (2, 0)] s1).mem 1 = some (text_bytes "x") := by
    rw [hs]
    decide
  exact ⟨s1, hs1, hr, h [(1, 120), (2, 0)] 1 (text_bytes "x") hr⟩

/-- C5: the exception holds its own copy of the message. After
`pybitwuzla_abort_fun(msg)` has raised on the C string `M`, any writes to the
memory that existed at the call (the buffer of the caller is part of it), before or
after the exception is caught, leave the extracted message exactly `M`. -/
theorem message_survives_buffer (s : State) (msg : Nat) (M : List Nat)
    (ws1 ws2 : List (Nat × Nat))
    (hM : c_str_at s.mem msg = some M)
    (h1 : ∀ w ∈ ws1, w.1 < s.mem.length)
    (h2 : ∀ w ∈ ws2, w.1 < s.mem.length) :
    ∃ e s1, pybitwuzla_abort_fun msg s = .raise e s1 ∧
      extracted_message
        (pybitwuzla_get_err_msg (stores ws2 (begin_catch e (stores ws1 s1))))
        = some M := by
  refine ⟨_, _, abort_fun_raise hM, ?_⟩
  obtain ⟨pre1, hlen1, heq1⟩ := stores_below ws1 s.mem (M ++ [0]) s.caught h1
  have h2b : ∀ w ∈ ws2, w.1 < pre1.length := by
    intro w hw
    rw [hlen1]
    exact h2 w hw
  obtain ⟨pre2, hlen2, heq2⟩ :=
    stores_below ws2 pre1 (M ++ [0])
      ({ type := .runtime_error, what := s.mem.length } :: s.caught) h2b
  have hst : stores ws2
      (begin_catch { type := .runtime_error, what := s.mem.length }
        (stores ws1 { s with mem := s.mem ++ (M ++ [0]) }))
      = ⟨pre2 ++ (M ++ [0]),
          { type := .runtime_error, what := s.mem.length } :: s.caught⟩ := by
    have : ({ s with mem := s.mem ++ (M ++ [0]) } : State)
        = ⟨s.mem ++ (M ++ [0]), s.caught⟩ := rfl
    rw [this, heq1]
    simpa [begin_catch] using heq2
  rw [hst, @get_err_msg_handling _ { type := .runtime_error, what := s.mem.length }
    s.caught rfl rfl]
  simp only [extracted_message]
  have hlen : s.mem.length = pre2.length := by rw [hlen2, hlen1]
  rw [hlen]
  refine c_str_at_append pre2 M [] ?_ (c_str_at_no_nul hM)
  have := (c_str_at_some hM).2.1
  omega

/-- C5, with the buffer of the caller overwritten between the raise and the catch:
the buffer no longer reads "abc", the extracted message still does. -/
theorem message_survives_buffer_witness :
    c_str_at (0 :: c_bytes "abc") 1 = some (text_bytes "abc") ∧
    (∀ w ∈ [(1, 0), (2, 90), (3, 90)], w.1 < (0 :: c_bytes "abc").length) ∧
    ∃ e s1, pybitwuzla_abort_fun 1 ⟨0 :: c_bytes "abc", []⟩ = .raise e s1 ∧
      c_str_at (stores [(1, 0), (2, 90), (3, 90)] s1).mem 1 = some [] ∧
      extracted_message
        (pybitwuzla_get_err_msg
          (stores [] (begin_catch e (stores [(1, 0), (2, 90), (3, 90)] s1))))
        = some (text_bytes "abc") := by
  have hw : ∀ w ∈ [((1 : Nat), (0 : Nat)), (2, 90), (3, 90)],
      w.1 < (0 :: c_bytes "abc").length := by decide
  refine ⟨by decide, hw, ?_⟩
  obtain ⟨e, s1, hr, hx⟩ :=
    message_survives_buffer ⟨0 :: c_bytes "abc", []⟩ 1 (text_bytes "abc")
      [(1, 0), (2, 90), (3, 90)] [] (by decide) hw (by simp)
  have h0 : pybitwuzla_abort_fun 1 ⟨0 :: c_bytes "abc", []⟩
      = .raise ⟨.runtime_error, 5⟩ ⟨0 :: c_bytes "abc" ++ (text_bytes "abc" ++ [0]), []⟩ := by
    decide
  have hs : s1 = ⟨0 :: c_bytes "abc" ++ (text_bytes "abc" ++ [0]), []⟩ := by
    rw [h0] at hr
    injection hr with _ hr2
    exact hr2.symm
  refine ⟨e, s1, hr, ?_, hx⟩
  rw [hs]
  decide

/-- C6 as stated fails: nothing in `pybitwuzla_abort_fun` looks at the state
of the thread, so a second abort raised inside the handler of the first is
thrown like any other; two signals are then alive at once, and once the second
is caught the thread is handling both. The same happens when the second abort
is raised by a destructor while the first signal is in flight. -/
theorem second_abort_while_handling :
    (run (.running [] ⟨0 :: c_bytes "a", []⟩)
        [.abort 1, .enter_handler, .abort 1]).map live_signals = some 2 ∧
    run (.running [] ⟨0 :: c_bytes "a", []⟩)
        [.abort 1, .enter_handler, .abort 1, .enter_handler]
      = some (.running [] ⟨[0, 97, 0, 97, 0, 97, 0],
          [⟨.runtime_error, 5⟩, ⟨.runtime_error, 3⟩]⟩) ∧
    run (.running [] ⟨0 :: c_bytes "a", []⟩)
        [.abort 1, .enter_destructor, .abort 1]
      = some (.unwinding ⟨.runtime_error, 5⟩ [⟨.runtime_error, 3⟩]
          ⟨[0, 97, 0, 97, 0, 97, 0], []⟩) ∧
    live_signals (.unwinding ⟨.runtime_error, 5⟩ [⟨.runtime_error, 3⟩]
        ⟨[0, 97, 0, 97, 0, 97, 0], []⟩) = 2 := by
  decide

/-- C6, amended: when the callers raise an abort only while no signal is alive
on the thread (none handled, none in flight), every configuration reached from
idle has at most one signal alive; from there a signal comes to life only by
an abort, and the thread is left without a signal only when the handler of the
signal completes, which leaves the thread idle, or by `std::terminate`. -/
theorem lifecycle_under_discipline (mem : List Nat) (ops : List Op) (c : Config)
    (hr : run_disciplined (.running [] ⟨mem, []⟩) ops = some c) :
    live_signals c ≤ 1 ∧
    ∀ (op : Op) (c2 : Config), abort_only_when_idle c op = true →
      step c op = some c2 →
      live_signals c2 ≤ 1 ∧
      (live_signals c = 0 → live_signals c2 = 1 → ∃ msg, op = .abort msg) ∧
      (live_signals c = 1 → live_signals c2 = 0 →
        (op = .leave_handler ∧ ∃ m, c2 = .running [] ⟨m, []⟩) ∨
          c2 = .terminated) := by
  have hinit : single_signal (.running [] ⟨mem, []⟩) := by
    intro x hx
    simp [signals] at hx
  have hinv : single_signal c := single_signal_run ops hinit hr
  refine ⟨single_signal_live hinv, ?_⟩
  intro op c2 hd hs
  have htr := single_signal_transitions hd hs
  refine ⟨single_signal_live (single_signal_step hinv hd hs), ?_, ?_⟩
  · intro h0 h1
    refine htr.1 (live_signals_eq_zero.mp h0) ?_
    intro h
    rw [live_signals_eq_zero.mpr h] at h1
    cases h1
  · intro h1 h0
    refine htr.2 ?_ (live_signals_eq_zero.mp h0)
    intro h
    rw [live_signals_eq_zero.mpr h] at h1
    cases h1

/-- C6, amended, on a run with a destructor during unwinding, two extractions
and a rethrow caught again in the first cycle, and a second cycle. -/
theorem lifecycle_under_discipline_witness :
    run_disciplined (.running [] ⟨0 :: c_bytes "a", []⟩)
        [.abort 1, .enter_destructor, .leave_destructor, .enter_handler,
         .extract, .extract, .rethrow, .enter_handler, .leave_handler,
         .leave_handler, .abort 1, .enter_handler]
      = some (.running [] ⟨[0, 97, 0, 97, 0, 97, 0], [⟨.runtime_error, 5⟩]⟩) ∧
    live_signals (.running [] ⟨[0, 97, 0, 97, 0, 97, 0], [⟨.runtime_error, 5⟩]⟩) ≤ 1 ∧
    live_signals (.running [] ⟨[0, 97, 0, 97, 0, 97, 0], []⟩) ≤ 1 :=
  have h := lifecycle_under_discipline (0 :: c_bytes "a")
    [.abort 1, .enter_destructor, .leave_destructor, .enter_handler,
     .extract, .extract, .rethrow, .enter_handler, .leave_handler,
     .leave_handler, .abort 1, .enter_handler]
    (.running [] ⟨[0, 97, 0, 97, 0, 97, 0], [⟨.runtime_error, 5⟩]⟩) (by decide)
  ⟨by decide, h.1,
   (h.2 .leave_handler (.running [] ⟨[0, 97, 0, 97, 0, 97, 0], []⟩)
     (by decide) (by decide)).1⟩

/-- C7: thread isolation. Two threads of one process, each with the handler
stack the C++ runtime keeps for it, share the memory; the first raises on the
C string `M1`, the second on `M2`, each catches its own signal and calls the
extractor. Under every schedule no call on either thread ends otherwise than
the scenario expects, a thread that has finished reads exactly its own
message at the address it was returned, a thread that was given three steps
has finished, and the memory that existed at the start is not written to. -/
theorem threads_isolated (mem : List Nat) (p1 p2 : Nat) (M1 M2 : List Nat)
    (c1 c2 : List ExnObj) (sched : List Bool)
    (h1 : c_str_at mem p1 = some M1) (h2 : c_str_at mem p2 = some M2) :
    (run_schedule ⟨mem, ⟨c1, .ready p1⟩, ⟨c2, .ready p2⟩⟩ sched).first.phase
      ≠ .failed ∧
    (run_schedule ⟨mem, ⟨c1, .ready p1⟩, ⟨c2, .ready p2⟩⟩ sched).second.phase
      ≠ .failed ∧
    (∀ q,
      (run_schedule ⟨mem, ⟨c1, .ready p1⟩, ⟨c2, .ready p2⟩⟩ sched).first.phase
        = .finished q →
      c_str_at (run_schedule ⟨mem, ⟨c1, .ready p1⟩, ⟨c2, .ready p2⟩⟩ sched).mem q
        = some M1) ∧
    (∀ q,
      (run_schedule ⟨mem, ⟨c1, .ready p1⟩, ⟨c2, .ready p2⟩⟩ sched).second.phase
        = .finished q →
      c_str_at (run_schedule ⟨mem, ⟨c1, .ready p1⟩, ⟨c2, .ready p2⟩⟩ sched).mem q
        = some M2) ∧
    (3 ≤ sched.count false → ∃ q,
      (run_schedule ⟨mem, ⟨c1, .ready p1⟩, ⟨c2, .ready p2⟩⟩ sched).first.phase
        = .finished q) ∧
    (3 ≤ sched.count true → ∃ q,
      (run_schedule ⟨mem, ⟨c1, .ready p1⟩, ⟨c2, .ready p2⟩⟩ sched).second.phase
        = .finished q) ∧
    ∃ ext,
      (run_schedule ⟨mem, ⟨c1, .ready p1⟩, ⟨c2, .ready p2⟩⟩ sched).mem
        = mem ++ ext := by
  obtain ⟨hext, hok1, hok2, hr1, hr2⟩ :=
    run_schedule_ok M1 M2 sched ⟨mem, ⟨c1, .ready p1⟩, ⟨c2, .ready p2⟩⟩ h1 h2
  refine ⟨?_, ?_, ?_, ?_, ?_, ?_, hext⟩
  · intro hph
    simp only [thread_ok, hph] at hok1
  · intro hph
    simp only [thread_ok, hph] at hok2
  · intro q hph
    simpa only [thread_ok, hph] using hok1
  · intro q hph
    simpa only [thread_ok, hph] using hok2
  · intro hn
    apply finished_of_rank
    rw [hr1]
    simp only [Phase.rank]
    omega
  · intro hn
    apply finished_of_rank
    rw [hr2]
    simp only [Phase.rank]
    omega

/-- C7, with the messages "ab" and "cd" and the steps of the two threads
interleaved: each thread ends with the address of its own copy. -/
theorem threads_isolated_witness :
    c_str_at (0 :: (c_bytes "ab" ++ c_bytes "cd")) 1 = some (text_bytes "ab") ∧
    c_str_at (0 :: (c_bytes "ab" ++ c_bytes "cd")) 4 = some (text_bytes "cd") ∧
    (run_schedule ⟨0 :: (c_bytes "ab" ++ c_bytes "cd"), ⟨[], .ready 1⟩, ⟨[], .ready 4⟩⟩
        [false, true, true, false, true, false]).first.phase = .finished 7 ∧
    (run_schedule ⟨0 :: (c_bytes "ab" ++ c_bytes "cd"), ⟨[], .ready 1⟩, ⟨[], .ready 4⟩⟩
        [false, true, true, false, true, false]).second.phase = .finished 10 ∧
    c_str_at
        (run_schedule ⟨0 :: (c_bytes "ab" ++ c_bytes "cd"), ⟨[], .ready 1⟩, ⟨[], .ready 4⟩⟩
          [false, true, true, false, true, false]).mem 7 = some (text_bytes "ab") ∧
    c_str_at
        (run_schedule ⟨0 :: (c_bytes "ab" ++ c_bytes "cd"), ⟨[], .ready 1⟩, ⟨[], .ready 4⟩⟩
          [false, true, true, false, true, false]).mem 10 = some (text_bytes "cd") :=
  have h := threads_isolated (0 :: (c_bytes "ab" ++ c_bytes "cd")) 1 4
    (text_bytes "ab") (text_bytes "cd") [] []
    [false, true, true, false, true, false] (by decide) (by decide)
  ⟨by decide, by decide, by decide, by decide,
   h.2.2.1 7 (by decide), h.2.2.2.1 10 (by decide)⟩

/-- C8: extraction only observes. While an exception matched by
`catch (const std::runtime_error&)` is being handled and its `what()` reads
`M`, a call of `pybitwuzla_get_err_msg()` returns that address and leaves the
handler stack and the memory exactly as they were, so `n` calls in a row read
`M` each time, for every `n`. -/
theorem extract_is_read_only (s : State) (e : ExnObj) (rest : List ExnObj)
    (M : List Nat) (n : Nat) (hc : s.caught = e :: rest)
    (ht : e.type.is_runtime_error = true)
    (hM : c_str_at s.mem e.what = some M) :
    pybitwuzla_get_err_msg s = .ret e.what s ∧
    extract_repeatedly n s = some (List.replicate n M, s) :=
  ⟨get_err_msg_handling hc ht, extract_repeatedly_eq hc ht hM n⟩

/-- C8, in the handler of a signal raised by `pybitwuzla_abort_fun` on "ab":
three calls. -/
theorem extract_is_read_only_witness :
    pybitwuzla_abort_fun 1 ⟨0 :: c_bytes "ab", []⟩
      = .raise ⟨.runtime_error, 4⟩ ⟨[0, 97, 98, 0, 97, 98, 0], []⟩ ∧
    pybitwuzla_get_err_msg ⟨[0, 97, 98, 0, 97, 98, 0], [⟨.runtime_error, 4⟩]⟩
      = .ret 4 ⟨[0, 97, 98, 0, 97, 98, 0], [⟨.runtime_error, 4⟩]⟩ ∧
    extract_repeatedly 3 ⟨[0, 97, 98, 0, 97, 98, 0], [⟨.runtime_error, 4⟩]⟩
      = some ([[97, 98], [97, 98], [97, 98]],
          ⟨[0, 97, 98, 0, 97, 98, 0], [⟨.runtime_error, 4⟩]⟩) :=
  ⟨by decide,
   extract_is_read_only ⟨[0, 97, 98, 0, 97, 98, 0], [⟨.runtime_error, 4⟩]⟩
     ⟨.runtime_error, 4⟩ [] [97, 98] 3 rfl rfl (by decide)⟩

/-- C9 as stated fails: while an exception of a class derived privately from
`std::runtime_error` is being handled, the handler of the extractor does not
match it; the extractor returns nothing and exits by that exception. -/
theorem extract_hidden_base_propagates :
    (ExnType.derived_hidden 2).derives_from_runtime_error = true ∧
    pybitwuzla_get_err_msg ⟨[0, 97, 0], [⟨.derived_hidden 2, 1⟩]⟩
      = .raise ⟨.derived_hidden 2, 1⟩ ⟨[0, 97, 0], [⟨.derived_hidden 2, 1⟩]⟩ ∧
    ¬ ∃ q s1,
      pybitwuzla_get_err_msg ⟨[0, 97, 0], [⟨.derived_hidden 2, 1⟩]⟩ = .ret q s1 := by
  refine ⟨rfl, rfl, ?_⟩
  rintro ⟨q, s1, h⟩
  cases h

/-- C9, amended: the extractor returns exactly when the exception being
handled by the innermost handler is a `std::runtime_error` or of a class that
has it as an unambiguous public base; it then returns the `what()` of that
exception, so the message read is the one at that address, and leaves the
state as it was. When the exception is of any other type, classes derived from
`std::runtime_error` in another way included, the extractor exits by that same
exception and leaves the state as it was. -/
theorem extract_iff_handler_matches (s : State) :
    ((∃ q s1, pybitwuzla_get_err_msg s = .ret q s1) ↔
      ∃ e rest, s.caught = e :: rest ∧ e.type.is_runtime_error = true) ∧
    (∀ e rest, s.caught = e :: rest → e.type.is_runtime_error = true →
      pybitwuzla_get_err_msg s = .ret e.what s ∧
      extracted_message (pybitwuzla_get_err_msg s) = c_str_at s.mem e.what) ∧
    (∀ e rest, s.caught = e :: rest → e.type.is_runtime_error = false →
      pybitwuzla_get_err_msg s = .raise e s) := by
  refine ⟨⟨?_, ?_⟩, ?_, fun e rest hc ht => get_err_msg_other hc ht⟩
  · rintro ⟨q, s1, h⟩
    cases hc : s.caught with
    | nil =>
      rw [get_err_msg_idle hc] at h
      cases h
    | cons e rest =>
      cases ht : e.type.is_runtime_error with
      | true => exact ⟨e, rest, rfl, ht⟩
      | false =>
        rw [get_err_msg_other hc ht] at h
        cases h
  · rintro ⟨e, rest, hc, ht⟩
    exact ⟨e.what, s, get_err_msg_handling hc ht⟩
  · intro e rest hc ht
    rw [get_err_msg_handling hc ht]
    exact ⟨rfl, rfl⟩

/-- C9, amended: while an exception of a publicly derived class whose `what()`
reads "a" is handled, while one of an unrelated type is, and with a
`std::runtime_error` under another handler. -/
theorem extract_iff_handler_matches_witness :
    (pybitwuzla_get_err_msg ⟨[0, 97, 0], [⟨.derived 2, 1⟩]⟩
        = .ret 1 ⟨[0, 97, 0], [⟨.derived 2, 1⟩]⟩ ∧
      extracted_message (pybitwuzla_get_err_msg ⟨[0, 97, 0], [⟨.derived 2, 1⟩]⟩)
        = some [97]) ∧
    pybitwuzla_get_err_msg ⟨[0, 97, 0], [⟨.other 2, 1⟩]⟩
      = .raise ⟨.other 2, 1⟩ ⟨[0, 97, 0], [⟨.other 2, 1⟩]⟩ ∧
    ∃ q s1,
      pybitwuzla_get_err_msg ⟨[0, 97, 0], [⟨.runtime_error, 1⟩, ⟨.other 2, 1⟩]⟩
        = .ret q s1 :=
  ⟨(extract_iff_handler_matches ⟨[0, 97, 0], [⟨.derived 2, 1⟩]⟩).2.1 _ _ rfl rfl,
   (extract_iff_handler_matches ⟨[0, 97, 0], [⟨.other 2, 1⟩]⟩).2.2 _ _ rfl rfl,
   (extract_iff_handler_matches
      ⟨[0, 97, 0], [⟨.runtime_error, 1⟩, ⟨.other 2, 1⟩]⟩).1.mpr ⟨_, _, rfl, rfl⟩⟩

end Pybitwuzla
